import Mathlib

/-!
Verification of the decimal fixed-point core of `advbet/decimal`.

The current code aliases `Number` to `shopspring/decimal.Decimal`, whose
coefficient is an arbitrary-precision integer (`big.Int`) and whose exponent
is an `int32`.  We model the coefficient as an unbounded integer and the
exponent as an unbounded integer; the `int32` casts in the Go code are the
identity on every exponent considered here.  `Rescale`, `Round`, `ScaledVal`
and the `RoundRule` dispatch are translated directly from `src/decimal.go`;
the methods of the `shopspring/decimal` dependency that they call, and the
text codec it provides, are not under `src/` and are modelled from the spec
(their doc comments say so explicitly).
-/

namespace Advbet

/-- Number models the `Number` type of the repository: a decimal value
`value * 10 ^ exp` with an arbitrary-precision integer coefficient and an
integer exponent, as provided by the `shopspring/decimal` alias in
`src/decimal.go`. -/
structure Number where
  value : Int
  exp : Int
deriving DecidableEq

/-- RoundRule models the Go enum `type RoundRule int` of `src/decimal.go`. -/
abbrev RoundRule := Int

/-- Directed rounding towards zero (`RoundTruncate RoundRule = iota`). -/
def RoundTruncate : RoundRule := 0

/-- Directed rounding towards negative infinity. -/
def RoundFloor : RoundRule := 1

/-- Directed rounding towards positive infinity. -/
def RoundCeil : RoundRule := 2

/-- Round to nearest, on tie round away from zero. -/
def RoundMath : RoundRule := 3

/-- Round to nearest, on tie round to an even number. -/
def RoundBankers : RoundRule := 4

/-- Rescale, translated from `src/decimal.go` (`func Rescale`): identity when
the exponent already matches, truncating big-integer division
(`big.Int.Quo`, truncation toward zero, here `Int.tdiv`) when moving to a
coarser exponent, exact multiplication when moving to a finer one. -/
def Rescale (d : Number) (exp : Int) : Number :=
  if d.exp = exp then d
  else
    let diff : Nat := (exp - d.exp).natAbs
    let expScale : Int := 10 ^ diff
    if d.exp < exp then ⟨d.value.tdiv expScale, exp⟩
    else ⟨d.value * expScale, exp⟩

/-- Adjustment of a truncated quotient by one unit away from zero, in the
direction of the sign of the original mantissa `m`. -/
def awayFromZero (m q : Int) : Int := if m < 0 then q - 1 else q + 1

/-- Truncated quotient of the mantissa of `d` by the power of ten that moves
`d` to the coarser target exponent `t`. -/
def Number.truncQuot (d : Number) (t : Int) : Int :=
  d.value.tdiv (10 ^ (t - d.exp).natAbs)

/-- Magnitude of the remainder dropped when the mantissa of `d` is truncated
at the coarser target exponent `t`. -/
def Number.remMag (d : Number) (t : Int) : Nat :=
  d.value.natAbs % 10 ^ (t - d.exp).natAbs

/-- Modelled from the spec: `shopspring/decimal`'s `Decimal.RoundBank`,
which `Round` in `src/decimal.go` calls and whose source is not under
`src/`.  Spec section 4.2: compare the remainder `r` to the exact tie value
`5 * 10 ^ (k-1)`; if strictly greater, round away from zero; if exactly
equal, round away from zero only when the truncated quotient is odd; a
target at or below the current exponent delegates to the exact rescale. -/
def Number.RoundBank (d : Number) (places : Int) : Number :=
  let t := -places
  if t ≤ d.exp then Rescale d t
  else
    let k := (t - d.exp).natAbs
    let q := d.truncQuot t
    let r := d.remMag t
    if 5 * 10 ^ (k - 1) < r then ⟨awayFromZero d.value q, t⟩
    else if r = 5 * 10 ^ (k - 1) ∧ q % 2 ≠ 0 then ⟨awayFromZero d.value q, t⟩
    else ⟨q, t⟩

/-- Modelled from the spec: `shopspring/decimal`'s `Decimal.Round` (round
half away from zero), not under `src/`.  Spec section 4.2: compare the
leading rounding digit `r / 10^(k-1)` against 5; if at least 5, move the
quotient one unit away from zero. -/
def Number.Round (d : Number) (places : Int) : Number :=
  let t := -places
  if t ≤ d.exp then Rescale d t
  else
    let k := (t - d.exp).natAbs
    let q := d.truncQuot t
    if 5 * 10 ^ (k - 1) ≤ d.remMag t then ⟨awayFromZero d.value q, t⟩
    else ⟨q, t⟩

/-- Modelled from the spec: `shopspring/decimal`'s `Decimal.RoundFloor`, not
under `src/`.  Spec section 4.2: if the value is negative and the dropped
remainder is non-zero, move the quotient one more unit toward negative
infinity; otherwise truncate. -/
def Number.RoundFloor (d : Number) (places : Int) : Number :=
  let t := -places
  if t ≤ d.exp then Rescale d t
  else
    let q := d.truncQuot t
    if d.value < 0 ∧ d.remMag t ≠ 0 then ⟨q - 1, t⟩
    else ⟨q, t⟩

/-- Modelled from the spec: `shopspring/decimal`'s `Decimal.RoundCeil`, not
under `src/`.  Spec section 4.2: if the value is positive and the dropped
remainder is non-zero, move the quotient one unit toward positive infinity;
otherwise truncate. -/
def Number.RoundCeil (d : Number) (places : Int) : Number :=
  let t := -places
  if t ≤ d.exp then Rescale d t
  else
    let q := d.truncQuot t
    if 0 < d.value ∧ d.remMag t ≠ 0 then ⟨q + 1, t⟩
    else ⟨q, t⟩

/-- Round, translated from `src/decimal.go` (`func Round`): exact rescale on
scale-down, otherwise dispatch on the rounding rule, with every value of the
rule other than the four named constants falling through to the truncating
default branch of the Go `switch`. -/
def Round (value : Number) (exp : Int) (rule : RoundRule) : Number :=
  if exp ≤ value.exp then Rescale value exp
  else if rule = RoundBankers then Rescale (value.RoundBank (-1 * exp)) exp
  else if rule = RoundMath then Rescale (value.Round (-1 * exp)) exp
  else if rule = RoundFloor then Rescale (value.RoundFloor (-1 * exp)) exp
  else if rule = RoundCeil then Rescale (value.RoundCeil (-1 * exp)) exp
  else Rescale value exp

/-- Modelled from the spec: `shopspring/decimal`'s `Decimal.CoefficientInt64`
(not under `src/`), the mantissa read-back used by `ScaledVal`; spec
section 4.2 describes `ScaledVal` as returning the mantissa as it would
appear at the target exponent, so the projection is modelled as exact. -/
def Number.CoefficientInt64 (d : Number) : Int := d.value

/-- ScaledVal, translated from `src/decimal.go` (`func ScaledVal`). -/
def ScaledVal (d : Number) (exp : Int) : Int :=
  (Rescale d exp).CoefficientInt64

/-- Modelled from the spec: the binary-float input type of `FromFloat64`,
abstracted by the case analysis of spec section 4.3 — a finite double is
identified with its shortest round-tripping decimal decomposition (directly
a mantissa and a decimal exponent here), while infinities and NaN have no
decimal representation. -/
inductive Float64Repr where
  | finite (m : Int) (e : Int)
  | posInf
  | negInf
  | nan
deriving DecidableEq

/-- Modelled from the spec: `shopspring/decimal`'s `NewFromFloat` (fork
code, not under `src/`), which the current `FromFloat64` wraps.  For finite
floats it builds the Number of the shortest decimal decomposition, exactly
the pairs pinned in `src/float64_test.go` (for example `123.456` gives
`(123456, -3)` and the largest double gives `(17976931348623157, 292)`);
for the non-finite inputs the spec's section 4.3 demands a failure, but the
same test file pins the fork's `NewFromFloat` to the zero Number on both
infinities and NaN, and those pins are followed here. -/
def NewFromFloat : Float64Repr → Number
  | .finite m e => ⟨m, e⟩
  | .posInf => ⟨0, 0⟩
  | .negInf => ⟨0, 0⟩
  | .nan => ⟨0, 0⟩

/-- FromFloat64, translated from `src/unnamed/part_000` (the current
`float64.go`): `return newDecimal.NewFromFloat(f), nil` — the result of
`NewFromFloat` paired with a hard-coded nil error, modelled as `none`. -/
def FromFloat64 (f : Float64Repr) : Number × Option String :=
  (NewFromFloat f, none)

/-- Decimal digit character of a single digit value. -/
def digitChar (d : Nat) : Char :=
  List.getD ['0', '1', '2', '3', '4', '5', '6', '7', '8', '9'] d '9'

/-- Numeric value of a decimal digit character. -/
def digitVal (c : Char) : Nat := c.toNat - 48

/-- Test for an ASCII decimal digit. -/
def isDigit (c : Char) : Bool := decide (48 ≤ c.toNat ∧ c.toNat ≤ 57)

/-- Value of a most-significant-first digit list. -/
def valOfDigits (l : List Nat) : Nat :=
  l.foldl (fun acc d => 10 * acc + d) 0

/-- Value of a most-significant-first digit character list. -/
def digitsVal (l : List Char) : Nat := valOfDigits (l.map digitVal)

/-- Little-endian base-ten digits, computed with explicit fuel so that the
definition is structurally recursive. -/
def digitsRevAux : Nat → Nat → List Nat
  | 0, _ => []
  | fuel + 1, n => if n = 0 then [] else n % 10 :: digitsRevAux fuel (n / 10)

/-- Most-significant-first decimal digit characters of a natural number. -/
def natDigitChars (n : Nat) : List Char :=
  if n = 0 then ['0'] else (digitsRevAux n n).reverse.map digitChar

/-- Character core of the canonical format, before the sign prefix: digits
of the absolute mantissa, trailing zeros appended for a positive exponent, a
decimal point inserted `-exp` digits from the right for a negative exponent,
with zero left-padding when the digit string is too short. -/
def coreChars (m e : Int) : List Char :=
  let s := natDigitChars m.natAbs
  if e = 0 then s
  else if 0 < e then s ++ List.replicate e.natAbs '0'
  else
    let k := e.natAbs
    if k < s.length then s.take (s.length - k) ++ ('.' :: s.drop (s.length - k))
    else '0' :: ('.' :: (List.replicate (k - s.length) '0' ++ s))

/-- Modelled from the spec: the canonical formatter (the `String` method is
provided by the `shopspring/decimal` dependency, not under `src/`).  Spec
section 4.3: the digit core of `coreChars`, with the sign prefix applied
once before everything. -/
def Number.toString (d : Number) : String :=
  if d.value < 0 then String.mk ('-' :: coreChars d.value d.exp)
  else String.mk (coreChars d.value d.exp)

/-- Stripping of one optional leading sign, returning the sign factor and
the remaining characters. -/
def signSplit : List Char → Int × List Char
  | [] => (1, [])
  | c :: cs =>
    if c = '+' then (1, cs)
    else if c = '-' then (-1, cs)
    else (1, c :: cs)

/-- Division of a character list at its first decimal point, if any. -/
def splitFrac : List Char → List Char × Option (List Char)
  | [] => ([], none)
  | c :: cs =>
    if c = '.' then ([], some cs)
    else
      let p := splitFrac cs
      (c :: p.1, p.2)

/-- Body of the parser after sign stripping: integer and fractional digit
runs are validated and concatenated. -/
def parseBody (sign : Int) (body : List Char) : Option Number :=
  match splitFrac body with
  | (ip, none) =>
    if ip ≠ [] ∧ ip.all isDigit then some ⟨sign * digitsVal ip, 0⟩
    else none
  | (ip, some fp) =>
    if (ip ++ fp) ≠ [] ∧ ip.all isDigit ∧ fp.all isDigit then
      some ⟨sign * digitsVal (ip ++ fp), -(fp.length : Int)⟩
    else none

/-- Modelled from the spec: `FromString` of `src/decimal.go` delegates to
`shopspring/decimal`'s `NewFromString`, whose source is not under `src/`;
the parser is modelled on the strict literal grammar of spec section 4.3,
`[sign] digits [ '.' digits ]` with an optional empty integer part: the
mantissa is the concatenation of the integer and fractional digit strings
read as a signed integer and the exponent is minus the length of the
fractional digit string. -/
def FromString (str : String) : Option Number :=
  parseBody (signSplit str.data).1 (signSplit str.data).2

/-! Auxiliary facts about digit strings. -/

theorem digitVal_digitChar {d : Nat} (h : d < 10) : digitVal (digitChar d) = d := by
  interval_cases d <;> decide

theorem isDigit_digitChar (d : Nat) : isDigit (digitChar d) = true := by
  rcases Nat.lt_or_ge d 10 with h | h
  · interval_cases d <;> decide
  · unfold digitChar
    rw [List.getD_eq_default]
    · decide
    · simpa using h

theorem foldl_digits_eq (l : List Nat) (a : Nat) :
    l.foldl (fun acc d => 10 * acc + d) a
      = a * 10 ^ l.length + Nat.ofDigits 10 l.reverse := by
  induction l generalizing a with
  | nil => simp [Nat.ofDigits]
  | cons x xs ih =>
    simp only [List.foldl_cons, List.reverse_cons, List.length_cons]
    rw [ih, Nat.ofDigits_append]
    simp only [Nat.ofDigits_cons, Nat.ofDigits_nil, List.length_reverse]
    ring

theorem valOfDigits_digits (n : Nat) :
    valOfDigits ((Nat.digits 10 n).reverse) = n := by
  unfold valOfDigits
  rw [foldl_digits_eq]
  simp [Nat.ofDigits_digits]

theorem digitsRevAux_eq (fuel n : Nat) (h : n ≤ fuel) :
    digitsRevAux fuel n = Nat.digits 10 n := by
  induction fuel generalizing n with
  | zero =>
    have : n = 0 := Nat.le_zero.mp h
    subst this
    simp [digitsRevAux]
  | succ f ih =>
    by_cases hn : n = 0
    · subst hn
      simp [digitsRevAux]
    · have hdiv : n / 10 ≤ f := by
        have := Nat.div_lt_self (Nat.pos_of_ne_zero hn) (by norm_num : (1 : Nat) < 10)
        omega
      simp only [digitsRevAux, hn, if_false]
      rw [ih (n / 10) hdiv, Nat.digits_def' (by norm_num : (1 : Nat) < 10) (Nat.pos_of_ne_zero hn)]

theorem natDigitChars_eq {n : Nat} (h : n ≠ 0) :
    natDigitChars n = (Nat.digits 10 n).reverse.map digitChar := by
  unfold natDigitChars
  rw [if_neg h, digitsRevAux_eq n n le_rfl]

theorem natDigitChars_ne_nil (n : Nat) : natDigitChars n ≠ [] := by
  by_cases h : n = 0
  · subst h; decide
  · rw [natDigitChars_eq h]
    simp [Nat.digits_ne_nil_iff_ne_zero, h]

theorem natDigitChars_all (n : Nat) : (natDigitChars n).all isDigit = true := by
  by_cases h : n = 0
  · subst h; decide
  · rw [natDigitChars_eq h, List.all_eq_true]
    intro c hc
    simp only [List.mem_map, List.mem_reverse] at hc
    obtain ⟨d, _, rfl⟩ := hc
    exact isDigit_digitChar d

theorem digitsVal_natDigitChars (n : Nat) : digitsVal (natDigitChars n) = n := by
  by_cases h : n = 0
  · subst h; decide
  · rw [natDigitChars_eq h]
    unfold digitsVal
    rw [List.map_map]
    have hmap : (Nat.digits 10 n).reverse.map (digitVal ∘ digitChar)
        = (Nat.digits 10 n).reverse := by
      rw [show (Nat.digits 10 n).reverse = (Nat.digits 10 n).reverse.map id by
            rw [List.map_id]]
      rw [List.map_map]
      apply List.map_congr_left
      intro d hd
      simp only [Function.comp_apply, id]
      exact digitVal_digitChar
        (Nat.digits_lt_base (by norm_num) (List.mem_reverse.mp (by simpa using hd)))
    rw [hmap, valOfDigits_digits]

theorem digitsVal_zero_cons (l : List Char) : digitsVal ('0' :: l) = digitsVal l := rfl

theorem digitsVal_zeros_append (z : Nat) (l : List Char) :
    digitsVal (List.replicate z '0' ++ l) = digitsVal l := by
  induction z with
  | zero => simp
  | succ k ih =>
    rw [List.replicate_succ, List.cons_append, digitsVal_zero_cons, ih]

theorem digitsVal_append (a b : List Char) :
    digitsVal (a ++ b) = digitsVal a * 10 ^ b.length + digitsVal b := by
  unfold digitsVal valOfDigits
  rw [List.map_append, List.foldl_append, foldl_digits_eq, foldl_digits_eq,
    foldl_digits_eq]
  simp only [List.length_map, zero_mul, zero_add]

theorem digitsVal_zeros (z : Nat) : digitsVal (List.replicate z '0') = 0 := by
  have := digitsVal_zeros_append z []
  simpa using this

theorem all_replicate_zero (z : Nat) : (List.replicate z '0').all isDigit = true := by
  rw [List.all_eq_true]
  intro c hc
  rw [List.mem_replicate] at hc
  rw [hc.2]
  decide

/-! Auxiliary facts about the modelled parser. -/

theorem not_dot_of_isDigit {c : Char} (h : isDigit c = true) : c ≠ '.' := by
  intro he
  subst he
  exact absurd h (by decide)

theorem splitFrac_no_dot (l : List Char) (h : l.all isDigit = true) :
    splitFrac l = (l, none) := by
  induction l with
  | nil => rfl
  | cons c cs ih =>
    rw [List.all_cons, Bool.and_eq_true] at h
    have hc : c ≠ '.' := not_dot_of_isDigit h.1
    simp [splitFrac, hc, ih h.2]

theorem splitFrac_dot (a b : List Char) (h : a.all isDigit = true) :
    splitFrac (a ++ ('.' :: b)) = (a, some b) := by
  induction a with
  | nil => simp [splitFrac]
  | cons c cs ih =>
    rw [List.all_cons, Bool.and_eq_true] at h
    have hc : c ≠ '.' := not_dot_of_isDigit h.1
    simp [splitFrac, hc, ih h.2]

theorem signSplit_digit (c : Char) (cs : List Char) (h : isDigit c = true) :
    signSplit (c :: cs) = (1, c :: cs) := by
  have h1 : c ≠ '+' := by intro e; subst e; exact absurd h (by decide)
  have h2 : c ≠ '-' := by intro e; subst e; exact absurd h (by decide)
  simp [signSplit, h1, h2]

theorem parseBody_digits (sign : Int) (l : List Char) (h1 : l ≠ [])
    (h2 : l.all isDigit = true) :
    parseBody sign l = some ⟨sign * (digitsVal l : Int), 0⟩ := by
  unfold parseBody
  rw [splitFrac_no_dot l h2]
  simp [h1, h2]

theorem parseBody_dotted (sign : Int) (a b : List Char)
    (ha : a.all isDigit = true) (hb : b.all isDigit = true) (hne : a ++ b ≠ []) :
    parseBody sign (a ++ ('.' :: b))
      = some ⟨sign * (digitsVal (a ++ b) : Int), -(b.length : Int)⟩ := by
  unfold parseBody
  rw [splitFrac_dot a b ha]
  simp [ha, hb, hne]

theorem exists_digit_head (l : List Char) (h1 : l ≠ []) (h2 : l.all isDigit = true) :
    ∃ c cs, l = c :: cs ∧ isDigit c = true := by
  obtain ⟨c, cs, rfl⟩ := List.exists_cons_of_ne_nil h1
  rw [List.all_cons, Bool.and_eq_true] at h2
  exact ⟨c, cs, rfl, h2.1⟩

theorem fromString_mk_digit_head (c : Char) (cs : List Char) (hc : isDigit c = true) :
    FromString (String.mk (c :: cs)) = parseBody 1 (c :: cs) := by
  unfold FromString
  rw [show (String.mk (c :: cs)).data = c :: cs from rfl, signSplit_digit c cs hc]

theorem fromString_mk_neg (l : List Char) :
    FromString (String.mk ('-' :: l)) = parseBody (-1) l := rfl

theorem all_take (l : List Char) (n : Nat) (h : l.all isDigit = true) :
    (l.take n).all isDigit = true := by
  rw [List.all_eq_true] at *
  intro c hc
  exact h c (List.take_subset n l hc)

theorem all_drop (l : List Char) (n : Nat) (h : l.all isDigit = true) :
    (l.drop n).all isDigit = true := by
  rw [List.all_eq_true] at *
  intro c hc
  exact h c (List.drop_subset n l hc)

theorem head_digit_of_prefix (a rest : List Char) (h1 : a ≠ [])
    (h2 : a.all isDigit = true) :
    ∃ c cs, a ++ rest = c :: cs ∧ isDigit c = true := by
  obtain ⟨c, cs, rfl, hc⟩ := exists_digit_head a h1 h2
  exact ⟨c, cs ++ rest, rfl, hc⟩

theorem coreChars_head_digit (m e : Int) :
    ∃ c cs, coreChars m e = c :: cs ∧ isDigit c = true := by
  have hsne := natDigitChars_ne_nil m.natAbs
  have hsall := natDigitChars_all m.natAbs
  unfold coreChars
  rcases lt_trichotomy e 0 with he | he | he
  · rw [if_neg (by omega), if_neg (by omega)]
    by_cases hk : e.natAbs < (natDigitChars m.natAbs).length
    · rw [if_pos hk]
      apply head_digit_of_prefix
      · have : ((natDigitChars m.natAbs).take
            ((natDigitChars m.natAbs).length - e.natAbs)).length
            = (natDigitChars m.natAbs).length - e.natAbs := by
          rw [List.length_take]
          omega
        intro hnil
        rw [hnil] at this
        simp at this
        omega
      · exact all_take _ _ hsall
    · rw [if_neg hk]
      exact ⟨'0', _, rfl, by decide⟩
  · subst he
    rw [if_pos rfl]
    exact exists_digit_head _ hsne hsall
  · rw [if_neg (by omega), if_pos he]
    exact head_digit_of_prefix _ _ hsne hsall

theorem fromString_toString (m e : Int) :
    FromString (Number.toString ⟨m, e⟩)
      = parseBody (if m < 0 then -1 else 1) (coreChars m e) := by
  obtain ⟨c, cs, hcore, hc⟩ := coreChars_head_digit m e
  unfold Number.toString
  by_cases hm : m < 0
  · rw [if_pos hm, if_pos hm]
    exact fromString_mk_neg _
  · rw [if_neg hm, if_neg hm]
    show FromString (String.mk (coreChars m e)) = _
    rw [hcore, fromString_mk_digit_head c cs hc]

theorem sign_mul_natAbs (m : Int) :
    (if m < 0 then (-1 : Int) else 1) * (m.natAbs : Int) = m := by
  by_cases hm : m < 0
  · rw [if_pos hm]; omega
  · rw [if_neg hm]; omega

theorem string_roundtrip_aux (m e : Int) :
    parseBody (if m < 0 then -1 else 1) (coreChars m e)
      = some (if 0 < e then ⟨m * 10 ^ e.natAbs, 0⟩ else ⟨m, e⟩) := by
  have hsne := natDigitChars_ne_nil m.natAbs
  have hsall := natDigitChars_all m.natAbs
  have hsval := digitsVal_natDigitChars m.natAbs
  have hsign := sign_mul_natAbs m
  unfold coreChars
  rcases lt_trichotomy e 0 with he | he | he
  · rw [if_neg (show ¬ e = 0 by omega), if_neg (show ¬ 0 < e by omega),
      if_neg (show ¬ 0 < e by omega)]
    by_cases hkl : e.natAbs < (natDigitChars m.natAbs).length
    · rw [if_pos hkl]
      have hta := all_take (natDigitChars m.natAbs)
        ((natDigitChars m.natAbs).length - e.natAbs) hsall
      have hda := all_drop (natDigitChars m.natAbs)
        ((natDigitChars m.natAbs).length - e.natAbs) hsall
      have htd := List.take_append_drop
        ((natDigitChars m.natAbs).length - e.natAbs) (natDigitChars m.natAbs)
      have hne2 : (natDigitChars m.natAbs).take
            ((natDigitChars m.natAbs).length - e.natAbs)
          ++ (natDigitChars m.natAbs).drop
            ((natDigitChars m.natAbs).length - e.natAbs) ≠ [] := by
        rw [htd]; exact hsne
      rw [parseBody_dotted _ _ _ hta hda hne2, htd]
      have hlen : ((natDigitChars m.natAbs).drop
          ((natDigitChars m.natAbs).length - e.natAbs)).length = e.natAbs := by
        rw [List.length_drop]
        omega
      rw [hlen, hsval, hsign]
      simp only [Option.some.injEq, Number.mk.injEq]
      exact ⟨trivial, by omega⟩
    · rw [if_neg hkl]
      rw [show ('0' :: ('.' :: (List.replicate
            (e.natAbs - (natDigitChars m.natAbs).length) '0' ++ natDigitChars m.natAbs)))
          = ['0'] ++ ('.' :: (List.replicate
            (e.natAbs - (natDigitChars m.natAbs).length) '0' ++ natDigitChars m.natAbs))
          from rfl]
      have hb : (List.replicate (e.natAbs - (natDigitChars m.natAbs).length) '0'
          ++ natDigitChars m.natAbs).all isDigit = true := by
        rw [List.all_append, all_replicate_zero, hsall]
        rfl
      rw [parseBody_dotted _ _ _ (by decide) hb (by simp)]
      rw [show (['0'] ++ (List.replicate (e.natAbs - (natDigitChars m.natAbs).length) '0'
            ++ natDigitChars m.natAbs))
          = '0' :: (List.replicate (e.natAbs - (natDigitChars m.natAbs).length) '0'
            ++ natDigitChars m.natAbs) from rfl]
      rw [digitsVal_zero_cons, digitsVal_zeros_append, hsval, hsign]
      have hlen : (List.replicate (e.natAbs - (natDigitChars m.natAbs).length) '0'
          ++ natDigitChars m.natAbs).length
          = e.natAbs := by
        rw [List.length_append, List.length_replicate]
        omega
      rw [hlen]
      simp only [Option.some.injEq, Number.mk.injEq]
      exact ⟨trivial, by omega⟩
  · subst he
    rw [if_pos rfl, if_neg (by omega : ¬ (0 : Int) < 0)]
    rw [parseBody_digits _ _ hsne hsall, hsval, hsign]
  · rw [if_neg (show ¬ e = 0 by omega), if_pos he, if_pos he]
    have hall : (natDigitChars m.natAbs ++ List.replicate e.natAbs '0').all isDigit
        = true := by
      rw [List.all_append, hsall, all_replicate_zero]
      rfl
    have hne : natDigitChars m.natAbs ++ List.replicate e.natAbs '0' ≠ [] := by
      simp [hsne]
    rw [parseBody_digits _ _ hne hall]
    rw [digitsVal_append, digitsVal_zeros, hsval, List.length_replicate]
    have hcast : ((m.natAbs * 10 ^ e.natAbs + 0 : Nat) : Int)
        = (m.natAbs : Int) * 10 ^ e.natAbs := by
      push_cast
      ring
    rw [hcast, ← mul_assoc, hsign]

theorem rescale_self (v t : Int) : Rescale ⟨v, t⟩ t = ⟨v, t⟩ := by
  simp [Rescale]

/-! Claim theorems. -/

/-- C1 counterexample: a rescale by 19 decimal digits — more than the 18
digits covered by the historical scale table — does not fail: `Rescale`
silently returns a numeric result, whose mantissa moreover exceeds what a
signed 64-bit integer can hold. -/
theorem rescale_bigshift_returns_value :
    Rescale ⟨123, -2⟩ (-21) = ⟨1230000000000000000000, -21⟩
  ∧ ((-21 : Int) - (-2 : Int)).natAbs > 18
  ∧ (2 : Int) ^ 63 < 1230000000000000000000 := by
  refine ⟨by decide, by decide, by decide⟩

/-- C1 (amended): for every shift of more than 18 decimal digits, `Rescale`
does not signal any overflow: it totally returns the big-integer arithmetic
result, multiplying exactly on scale-down and truncating on scale-up. -/
theorem rescale_total_beyond_table (d : Number) (t : Int)
    (h : 18 < (t - d.exp).natAbs) :
    (Rescale d t).exp = t
  ∧ (t ≤ d.exp → (Rescale d t).value = d.value * 10 ^ (d.exp - t).natAbs)
  ∧ (d.exp < t → (Rescale d t).value = d.value.tdiv (10 ^ (t - d.exp).natAbs)) := by
  have hne : ¬ d.exp = t := by omega
  by_cases hlt : d.exp < t
  · have hR : Rescale d t = ⟨d.value.tdiv (10 ^ (t - d.exp).natAbs), t⟩ := by
      simp [Rescale, hne, hlt]
    rw [hR]
    exact ⟨rfl, fun hle => by omega, fun _ => rfl⟩
  · have hR : Rescale d t = ⟨d.value * 10 ^ (t - d.exp).natAbs, t⟩ := by
      simp [Rescale, hne, hlt]
    rw [hR]
    refine ⟨rfl, fun hle => ?_, fun hlt2 => by omega⟩
    show d.value * 10 ^ (t - d.exp).natAbs = d.value * 10 ^ (d.exp - t).natAbs
    rw [show (t - d.exp).natAbs = (d.exp - t).natAbs by omega]

/-- C1 witness: the amended theorem applied at a concrete 19-digit
scale-down. -/
theorem rescale_total_beyond_table_witness :
    (Rescale ⟨123, -2⟩ (-21)).exp = -21
  ∧ (Rescale ⟨123, -2⟩ (-21)).value = 123 * 10 ^ 19 := by
  have h := rescale_total_beyond_table ⟨123, -2⟩ (-21) (by decide)
  refine ⟨h.1, ?_⟩
  rw [h.2.1 (by decide)]
  decide

/-- C2: evaluation of the current `FromFloat64` at the non-finite inputs —
it returns the zero Number paired with the hard-coded nil error, and indeed
no input whatsoever can make it return a non-nil error, while finite floats
yield their decimal decomposition.  The spec and the claim instead require
every non-finite input to fail with a non-nil error. -/
theorem fromFloat64_nonfinite_silent_zero :
    FromFloat64 Float64Repr.posInf = (⟨0, 0⟩, none)
  ∧ FromFloat64 Float64Repr.negInf = (⟨0, 0⟩, none)
  ∧ FromFloat64 Float64Repr.nan = (⟨0, 0⟩, none)
  ∧ (∀ m e : Int, FromFloat64 (Float64Repr.finite m e) = (⟨m, e⟩, none))
  ∧ (∀ f : Float64Repr, (FromFloat64 f).2 = none) :=
  ⟨rfl, rfl, rfl, fun _ _ => rfl, fun _ => rfl⟩

/-- C5: rounding to a target exponent at or below the current exponent is
exact and independent of the rounding rule: the mantissa is multiplied by
the power of ten and the exponent set to the target. -/
theorem round_scale_down_exact (m e t : Int) (rule : RoundRule) (h : t ≤ e) :
    Round ⟨m, e⟩ t rule = ⟨m * 10 ^ (e - t).natAbs, t⟩ := by
  have hgoal : Rescale ⟨m, e⟩ t = ⟨m * 10 ^ (e - t).natAbs, t⟩ := by
    by_cases he : e = t
    · subst he
      simp [Rescale]
    · have hlt : ¬ ((⟨m, e⟩ : Number).exp < t) := by
        show ¬ e < t
        omega
      simp [Rescale, he, hlt]
      rw [show (t - e).natAbs = (e - t).natAbs by omega]
      exact Or.inl rfl
  simp only [Round]
  rw [if_pos (show t ≤ (⟨m, e⟩ : Number).exp from h)]
  exact hgoal

/-- C5 witness: the theorem applied at a concrete scale-down, under the
Bankers rule. -/
theorem round_scale_down_exact_witness :
    Round ⟨123, -2⟩ (-4) RoundBankers = ⟨12300, -4⟩ := by
  have h := round_scale_down_exact 123 (-2) (-4) RoundBankers (by decide)
  rw [h]
  decide

/-- C9: every rounding-rule value other than the four constants that name an
adjusting rule — including `RoundTruncate` and any integer outside the five
defined constants — makes `Round` truncate toward zero on scale-up. -/
theorem round_default_truncates (rule : RoundRule) (m e t : Int) (h : e < t)
    (h1 : rule ≠ RoundFloor) (h2 : rule ≠ RoundCeil) (h3 : rule ≠ RoundMath)
    (h4 : rule ≠ RoundBankers) :
    Round ⟨m, e⟩ t rule = ⟨m.tdiv (10 ^ (t - e).natAbs), t⟩ := by
  have hR : Rescale ⟨m, e⟩ t = ⟨m.tdiv (10 ^ (t - e).natAbs), t⟩ := by
    have hne : ¬ ((⟨m, e⟩ : Number).exp = t) := by
      show ¬ e = t
      omega
    have hlt : (⟨m, e⟩ : Number).exp < t := h
    simp [Rescale, hne, hlt]
  simp only [Round]
  rw [if_neg (show ¬ t ≤ (⟨m, e⟩ : Number).exp by exact not_le.mpr h),
    if_neg h4, if_neg h3, if_neg h1, if_neg h2]
  exact hR

/-- C9 witness: the theorem applied at `RoundTruncate` and at the undefined
rule value 37. -/
theorem round_default_truncates_witness :
    Round ⟨12345, -2⟩ 0 RoundTruncate = ⟨123, 0⟩
  ∧ Round ⟨12345, -2⟩ 0 37 = ⟨123, 0⟩ := by
  constructor
  · rw [round_default_truncates RoundTruncate 12345 (-2) 0 (by decide) (by decide)
      (by decide) (by decide) (by decide)]
    decide
  · rw [round_default_truncates 37 12345 (-2) 0 (by decide) (by decide)
      (by decide) (by decide) (by decide)]
    decide

/-- C7: `ScaledVal` returns the mantissa rewritten at the target exponent —
exact multiplication toward a finer exponent, truncating division toward a
coarser one — and on `12.99` yields `129900` at exponent `-4` and `12` at
exponent `0`. -/
theorem scaledVal_projection (d : Number) (t : Int) :
    (t ≤ d.exp → ScaledVal d t = d.value * 10 ^ (d.exp - t).natAbs)
  ∧ (d.exp < t → ScaledVal d t = d.value.tdiv (10 ^ (t - d.exp).natAbs))
  ∧ FromString ("12.99") = some ⟨1299, -2⟩
  ∧ ScaledVal ⟨1299, -2⟩ (-4) = 129900
  ∧ ScaledVal ⟨1299, -2⟩ 0 = 12 := by
  refine ⟨?_, ?_, by decide, by decide, by decide⟩
  · intro h
    unfold ScaledVal Number.CoefficientInt64
    by_cases he : d.exp = t
    · rw [show Rescale d t = d by simp [Rescale, he]]
      rw [show (d.exp - t).natAbs = 0 by omega]
      simp
    · have hlt : ¬ d.exp < t := by omega
      simp [Rescale, he, hlt]
      rw [show (t - d.exp).natAbs = (d.exp - t).natAbs by omega]
      exact Or.inl rfl
  · intro h
    have hne : ¬ d.exp = t := by omega
    unfold ScaledVal Number.CoefficientInt64
    simp [Rescale, hne, h]

/-- C7 witness: the projection applied at the two concrete calls of the
claim. -/
theorem scaledVal_projection_witness :
    ScaledVal ⟨1299, -2⟩ (-4) = 129900 ∧ ScaledVal ⟨1299, -2⟩ 0 = 12 := by
  constructor
  · rw [(scaledVal_projection ⟨1299, -2⟩ (-4)).1 (by decide)]
    decide
  · rw [(scaledVal_projection ⟨1299, -2⟩ 0).2.1 (by decide)]
    decide

/-- C3 counterexample: the canonical text of the Number `(1234, 2)` is
`"123400"`, which parses back to the pair `(123400, 0)` — the same value but
not the identical `(mantissa, exponent)` pair. -/
theorem string_roundtrip_pos_exp_cex :
    FromString (Number.toString ⟨1234, 2⟩) = some ⟨123400, 0⟩
  ∧ (⟨123400, 0⟩ : Number) ≠ ⟨1234, 2⟩ := by
  refine ⟨by decide, by decide⟩

/-- C3 (amended): parsing the canonical formatted string of a Number yields
the identical `(mantissa, exponent)` pair whenever the exponent is at most
zero; for a positive exponent the trailing zeros restored by the formatter
are absorbed into the mantissa, yielding the value-equal pair
`(mantissa * 10 ^ exponent, 0)` instead. -/
theorem string_roundtrip (n : Number) :
    FromString (Number.toString n)
      = some (if 0 < n.exp then ⟨n.value * 10 ^ n.exp.natAbs, 0⟩ else n) := by
  obtain ⟨m, e⟩ := n
  rw [fromString_toString, string_roundtrip_aux]

/-- Dispatch of `Round` to the modelled `shopspring` rounding method on
scale-up, for the Bankers rule. -/
theorem round_dispatch_bankers (m e t : Int) (h : e < t) :
    Round ⟨m, e⟩ t RoundBankers
      = Rescale (Number.RoundBank ⟨m, e⟩ (-1 * t)) t := by
  simp only [Round]
  rw [if_neg (show ¬ t ≤ (⟨m, e⟩ : Number).exp by exact not_le.mpr h),
    if_pos trivial]

/-- Reduction of the modelled `RoundBank` on a strict scale-up. -/
theorem roundBank_reduce (m e t : Int) (h : e < t) :
    Number.RoundBank ⟨m, e⟩ (-1 * t)
      = (if 5 * 10 ^ ((t - e).natAbs - 1) < m.natAbs % 10 ^ (t - e).natAbs then
          ⟨awayFromZero m (m.tdiv (10 ^ (t - e).natAbs)), t⟩
        else if m.natAbs % 10 ^ (t - e).natAbs = 5 * 10 ^ ((t - e).natAbs - 1)
            ∧ m.tdiv (10 ^ (t - e).natAbs) % 2 ≠ 0 then
          ⟨awayFromZero m (m.tdiv (10 ^ (t - e).natAbs)), t⟩
        else ⟨m.tdiv (10 ^ (t - e).natAbs), t⟩) := by
  simp only [Number.RoundBank, Number.truncQuot, Number.remMag, neg_mul, one_mul,
    neg_neg]
  rw [if_neg (show ¬ t ≤ (⟨m, e⟩ : Number).exp by exact not_le.mpr h)]

/-- Parity of the away-from-zero adjustment of an odd quotient. -/
theorem awayFromZero_even (m q : Int) (h : q % 2 ≠ 0) : awayFromZero m q % 2 = 0 := by
  unfold awayFromZero
  by_cases hm : m < 0
  · rw [if_pos hm]; omega
  · rw [if_neg hm]; omega

/-- C4: under the Bankers rule on scale-up, a remainder exactly at the tie
value `5 * 10 ^ (k-1)` rounds to the even quotient (away from zero only when
the truncated quotient is odd), a remainder strictly above the tie rounds
away from zero, and concretely both `0.450000` and `0.350000` round to
`"0.4"` at exponent `-1`. -/
theorem round_bankers_tie_even (m e t : Int) (h : e < t) :
    ((m.natAbs % 10 ^ (t - e).natAbs = 5 * 10 ^ ((t - e).natAbs - 1)) →
        Round ⟨m, e⟩ t RoundBankers
          = ⟨if m.tdiv (10 ^ (t - e).natAbs) % 2 = 0 then m.tdiv (10 ^ (t - e).natAbs)
              else awayFromZero m (m.tdiv (10 ^ (t - e).natAbs)), t⟩
      ∧ (Round ⟨m, e⟩ t RoundBankers).value % 2 = 0)
  ∧ (5 * 10 ^ ((t - e).natAbs - 1) < m.natAbs % 10 ^ (t - e).natAbs →
      Round ⟨m, e⟩ t RoundBankers
        = ⟨awayFromZero m (m.tdiv (10 ^ (t - e).natAbs)), t⟩)
  ∧ FromString ("0.450000") = some ⟨450000, -6⟩
  ∧ Number.toString (Round ⟨450000, -6⟩ (-1) RoundBankers) = "0.4"
  ∧ FromString ("0.350000") = some ⟨350000, -6⟩
  ∧ Number.toString (Round ⟨350000, -6⟩ (-1) RoundBankers) = "0.4" := by
  refine ⟨?_, ?_, by decide, by decide, by decide, by decide⟩
  · intro hr
    rw [round_dispatch_bankers m e t h, roundBank_reduce m e t h]
    rw [if_neg (show ¬ 5 * 10 ^ ((t - e).natAbs - 1)
        < m.natAbs % 10 ^ (t - e).natAbs by omega)]
    by_cases hq : m.tdiv (10 ^ (t - e).natAbs) % 2 = 0
    · rw [if_neg (show ¬ (m.natAbs % 10 ^ (t - e).natAbs
            = 5 * 10 ^ ((t - e).natAbs - 1)
          ∧ m.tdiv (10 ^ (t - e).natAbs) % 2 ≠ 0) by
          rintro ⟨-, hodd⟩; exact hodd hq)]
      rw [rescale_self, if_pos hq]
      exact ⟨rfl, hq⟩
    · rw [if_pos ⟨hr, hq⟩, rescale_self, if_neg hq]
      exact ⟨rfl, awayFromZero_even m _ hq⟩
  · intro hgt
    rw [round_dispatch_bankers m e t h, roundBank_reduce m e t h, if_pos hgt,
      rescale_self]

/-- C4 witness: the Bankers tie case applied at the two concrete tie inputs
of the claim. -/
theorem round_bankers_tie_even_witness :
    Round ⟨450000, -6⟩ (-1) RoundBankers = ⟨4, -1⟩
  ∧ Round ⟨350000, -6⟩ (-1) RoundBankers = ⟨4, -1⟩ := by
  constructor
  · rw [((round_bankers_tie_even 450000 (-6) (-1) (by decide)).1 (by decide)).1]
    decide
  · rw [((round_bankers_tie_even 350000 (-6) (-1) (by decide)).1 (by decide)).1]
    decide

/-- C8: on scale-up of a negative value with a non-zero dropped remainder,
the Floor rule moves the truncated quotient one unit toward negative
infinity while the Ceil rule leaves it truncated, and concretely `-123.45`
rounds to `"-123.5"` under Floor and `"-123.4"` under Ceil at exponent
`-1`. -/
theorem round_floor_ceil_negative (m e t : Int) (h1 : e < t) (h2 : m < 0)
    (h3 : m.natAbs % 10 ^ (t - e).natAbs ≠ 0) :
    Round ⟨m, e⟩ t RoundFloor = ⟨m.tdiv (10 ^ (t - e).natAbs) - 1, t⟩
  ∧ Round ⟨m, e⟩ t RoundCeil = ⟨m.tdiv (10 ^ (t - e).natAbs), t⟩
  ∧ FromString ("-123.45") = some ⟨-12345, -2⟩
  ∧ Number.toString (Round ⟨-12345, -2⟩ (-1) RoundFloor) = "-123.5"
  ∧ Number.toString (Round ⟨-12345, -2⟩ (-1) RoundCeil) = "-123.4" := by
  have hnle : ¬ t ≤ (⟨m, e⟩ : Number).exp := not_le.mpr h1
  refine ⟨?_, ?_, by decide, by decide, by decide⟩
  · simp only [Round]
    rw [if_neg hnle, if_neg (show RoundFloor ≠ RoundBankers by decide),
      if_neg (show RoundFloor ≠ RoundMath by decide), if_pos trivial]
    simp only [Number.RoundFloor, Number.truncQuot, Number.remMag, neg_mul,
      one_mul, neg_neg]
    rw [if_neg hnle, if_pos ⟨h2, h3⟩, rescale_self]
  · simp only [Round]
    rw [if_neg hnle, if_neg (show RoundCeil ≠ RoundBankers by decide),
      if_neg (show RoundCeil ≠ RoundMath by decide),
      if_neg (show RoundCeil ≠ RoundFloor by decide), if_pos trivial]
    simp only [Number.RoundCeil, Number.truncQuot, Number.remMag, neg_mul,
      one_mul, neg_neg]
    rw [if_neg hnle, if_neg (show ¬ (0 < m
        ∧ m.natAbs % 10 ^ (t - e).natAbs ≠ 0) by rintro ⟨hm, -⟩; omega),
      rescale_self]

/-- C8 witness: the Floor and Ceil conclusions applied at the concrete input
`-123.45` of the claim. -/
theorem round_floor_ceil_negative_witness :
    Round ⟨-12345, -2⟩ (-1) RoundFloor = ⟨-1235, -1⟩
  ∧ Round ⟨-12345, -2⟩ (-1) RoundCeil = ⟨-1234, -1⟩ := by
  constructor
  · rw [(round_floor_ceil_negative (-12345) (-2) (-1) (by decide) (by decide)
      (by decide)).1]
    decide
  · rw [(round_floor_ceil_negative (-12345) (-2) (-1) (by decide) (by decide)
      (by decide)).2.1]
    decide

theorem all_map_digitChar (L : List Nat) : (L.map digitChar).all isDigit = true := by
  rw [List.all_eq_true]
  intro c hc
  obtain ⟨d, _, rfl⟩ := List.mem_map.mp hc
  exact isDigit_digitChar d

theorem digitsVal_map_digitChar (L : List Nat) (h : ∀ d ∈ L, d < 10) :
    digitsVal (L.map digitChar) = valOfDigits L := by
  unfold digitsVal
  rw [List.map_map]
  congr 1
  calc L.map (digitVal ∘ digitChar) = L.map id := by
        apply List.map_congr_left
        intro d hd
        simp only [Function.comp_apply, id_eq]
        exact digitVal_digitChar (h d hd)
    _ = L := List.map_id L

theorem fromString_mk_sign (neg : Bool) (c : Char) (cs : List Char)
    (hc : isDigit c = true) :
    FromString (String.mk ((if neg then ['-'] else []) ++ (c :: cs)))
      = parseBody (if neg then -1 else 1) (c :: cs) := by
  cases neg
  · exact fromString_mk_digit_head c cs hc
  · exact fromString_mk_neg (c :: cs)

/-- C6: every literal of the grammar `[sign] digits [ '.' digits ]` parses
to the Number whose mantissa is the concatenation of the integer and
fractional digit strings read as a signed integer and whose exponent is
minus the length of the fractional digit string (zero with no fractional
part); concretely `"123.456"` parses to mantissa `123456` and exponent
`-3`. -/
theorem fromString_grammar (neg : Bool) (I F : List Nat) (hI : I ≠ [])
    (hIb : ∀ d ∈ I, d < 10) (hFb : ∀ d ∈ F, d < 10) :
    FromString (String.mk ((if neg then ['-'] else [])
        ++ (I.map digitChar ++ ('.' :: F.map digitChar))))
      = some ⟨(if neg then (-1 : Int) else 1) * (valOfDigits (I ++ F) : Int),
          -(F.length : Int)⟩
  ∧ FromString (String.mk ((if neg then ['-'] else []) ++ I.map digitChar))
      = some ⟨(if neg then (-1 : Int) else 1) * (valOfDigits I : Int), 0⟩
  ∧ FromString ("123.456") = some ⟨123456, -3⟩ := by
  have hIall := all_map_digitChar I
  have hFall := all_map_digitChar F
  have hInil : I.map digitChar ≠ [] := by
    cases I with
    | nil => exact absurd rfl hI
    | cons a as => simp
  obtain ⟨c, cs, hcons, hc⟩ := exists_digit_head (I.map digitChar) hInil hIall
  refine ⟨?_, ?_, by decide⟩
  · have hbound : ∀ d ∈ I ++ F, d < 10 := by
      intro d hd
      rcases List.mem_append.mp hd with hh | hh
      · exact hIb d hh
      · exact hFb d hh
    rw [show I.map digitChar ++ ('.' :: F.map digitChar)
        = c :: (cs ++ ('.' :: F.map digitChar)) by rw [hcons]; rfl]
    rw [fromString_mk_sign neg c _ hc]
    rw [show c :: (cs ++ ('.' :: F.map digitChar))
        = I.map digitChar ++ ('.' :: F.map digitChar) by rw [hcons]; rfl]
    rw [parseBody_dotted _ _ _ hIall hFall (by simp [hInil])]
    rw [← List.map_append, digitsVal_map_digitChar (I ++ F) hbound,
      List.length_map]
  · rw [hcons, fromString_mk_sign neg c cs hc, ← hcons]
    rw [parseBody_digits _ _ hInil hIall, digitsVal_map_digitChar I hIb]

/-- C6 witness: the grammar theorem applied at the concrete literal
`"123.456"` of the claim. -/
theorem fromString_grammar_witness :
    FromString ("123.456") = some ⟨123456, -3⟩ :=
  (fromString_grammar false [1, 2, 3] [4, 5, 6] (by decide) (by decide)
    (by decide)).2.2

/-- C10: the parser accepts a single leading plus sign: `"+1"` parses to the
Number `(1, 0)` and `"+1.2"` to `(12, -1)`, as the repository's tests pin
down. -/
theorem fromString_plus_sign :
    FromString ("+1") = some ⟨1, 0⟩ ∧ FromString ("+1.2") = some ⟨12, -1⟩ := by
  refine ⟨by decide, by decide⟩

end Advbet
